import Mathlib

/-!
Verification development for the `nefertari_es` class-construction pipeline
(`src/nefertari_es/meta.py`).

The embedding models Python objects with value semantics:

* a Python `dict` (which preserves insertion order and replaces values in
  place on re-insertion) is an ordered association list `ODict`;
* class objects live in a `heap : List DocClass`; a "class reference" is the
  heap index of the object, so mutating a class another class holds a
  reference to is an update of the heap entry;
* the process-wide `_document_registry` maps class names to heap indices;
* the side-effect order of the metaclass pipeline is recorded in a `trace`
  of stage events, appended exactly where the corresponding statement of
  `meta.py` executes.

The `Field` / `Relationship` data carrier comes from `nefertari_es/fields.py`,
which is not part of the sources here; it is modelled from the spec
(a field has a type tag, a target class reference, an optional
inverse-relationship request `name` + keyword options including `uselist`,
and a mutable back-populate marker).
-/

namespace NefertariES

/-- An ordered dictionary: Python `dict` semantics over string keys.
Lookup returns the first binding; insertion replaces the first binding
in place when the key is present and appends otherwise. -/
abbrev ODict (α : Type) := List (String × α)

/-- Lookup, Python `d[k]` / `k in d`. -/
def odGet {α : Type} : ODict α → String → Option α
  | [], _ => none
  | (k, v) :: rest, key => if k = key then some v else odGet rest key

/-- Insertion, Python `d[k] = v`: replace in place or append. -/
def odInsert {α : Type} : ODict α → String → α → ODict α
  | [], key, val => [(key, val)]
  | (k, v) :: rest, key, val =>
      if k = key then (k, val) :: rest else (k, v) :: odInsert rest key val

/-- The keys of an ordered dictionary, in order. -/
def odKeys {α : Type} (d : ODict α) : List String := d.map Prod.fst

/-- The values of an ordered dictionary, in order (Python `d.values()`). -/
def odValues {α : Type} (d : ODict α) : List α := d.map Prod.snd

/-- Modelled from the spec: the inverse-relationship request carried by a
relationship field in `fields.py` (a keyword-options dictionary with a
mandatory target-field `name`, an optional `uselist` pluralism flag and
further opaque options). -/
structure BackrefKwargs where
  name : String
  uselist : Option Bool
  opts : List (String × Nat)
deriving DecidableEq

/-- Modelled from the spec: a schema field from `fields.py`.  `fieldId` is a
provenance tag standing for Python object identity; `isRel` marks
relationship fields; `docClass` is the target class reference (heap index);
`backrefKwargs` is the optional inverse-relationship request;
`backPopulates` is the mutable back-populate marker. -/
structure Field where
  fieldId : Nat
  isRel : Bool
  docClass : Nat
  uselist : Bool
  opts : List (String × Nat)
  backrefKwargs : Option BackrefKwargs
  backPopulates : Option String
deriving DecidableEq

/-- Modelled from the spec: the `Relationship` field constructor of
`fields.py` — a relationship field pointing at the given class, carrying the
given keyword options, with no inverse request and no marker yet. -/
def Relationship (target : Nat) (uselist : Bool) (opts : List (String × Nat)) : Field :=
  { fieldId := 0, isRel := true, docClass := target, uselist := uselist,
    opts := opts, backrefKwargs := none, backPopulates := none }

/-- A declared class attribute: either a schema field or any other value. -/
inductive Attr where
  | field (f : Field)
  | other (v : Nat)
deriving DecidableEq

/-- A document class object: its `__name__` and its finalized
`_doc_type.mapping` (field name to field). -/
structure DocClass where
  name : String
  mapping : ODict Field
deriving DecidableEq

/-- The observable side-effect events of the three repository-defined
pipeline stages, in the order they execute. -/
inductive StageEvent where
  | inheritMerge
  | backrefSynth
  | register
deriving DecidableEq

/-- A base class as seen by the metaclass: either a document class (it has
`_doc_type.mapping`, referenced through the heap) or a plain class with its
`__dict__` of declared attributes. -/
inductive Base where
  | doc (id : Nat)
  | plain (dict : ODict Attr)
deriving DecidableEq

/-- The process state: the heap of class objects (a class reference is an
index), the `_document_registry` (name to heap index) and the event trace. -/
structure PState where
  heap : List DocClass
  registry : ODict Nat
  trace : List StageEvent
deriving DecidableEq

/-- Dereference a class object. -/
def classAt (st : PState) (id : Nat) : Option DocClass := st.heap[id]?

/-- A class object's mapping (empty for a dangling reference). -/
def classMapping (st : PState) (id : Nat) : ODict Field :=
  match st.heap[id]? with
  | some c => c.mapping
  | none => []

/-- A class object's `__name__`. -/
def classNameAt (st : PState) (id : Nat) : Option String :=
  (st.heap[id]?).map DocClass.name

/-- In-place mutation of a class object's mapping through a reference. -/
def updateMapping (st : PState) (id : Nat) (h : ODict Field → ODict Field) : PState :=
  match st.heap[id]? with
  | some c => { st with heap := st.heap.set id { c with mapping := h c.mapping } }
  | none => st

/-- `get_document_cls` (meta.py): registry lookup; raising `KeyError` on an
absent name is the `Except.error` branch. -/
def get_document_cls (st : PState) (nm : String) : Except String Nat :=
  match odGet st.registry nm with
  | some id => Except.ok id
  | none => Except.error nm

/-- `get_document_classes` (meta.py): a snapshot copy of the registry. -/
def get_document_classes (st : PState) : ODict Nat := st.registry

/-- The external search client's index object, modelled minimally: the name
and the document classes added so far. -/
structure ESIndex where
  name : String
  docTypes : List Nat
deriving DecidableEq

/-- `index.doc_type(cls)` of the external client: add a class to the index. -/
def indexDocType (i : ESIndex) (id : Nat) : ESIndex :=
  { i with docTypes := i.docTypes ++ [id] }

/-- `create_index` (meta.py): build an index over the given classes,
defaulting to every class in the registry; the final `index.create()` call
is external I/O, so the built index object is the observable result. -/
def create_index (st : PState) (index_name : String) (doc_classes : Option (List Nat)) :
    ESIndex :=
  let index : ESIndex := { name := index_name, docTypes := [] }
  let classes : List Nat :=
    match doc_classes with
    | none => odValues (get_document_classes st)
    | some l => l
  classes.foldl indexDocType index

/-- `base_docs_fields` of `NonDocumentInheritanceMixin.__new__`: the union of
the `_doc_type.mapping.to_dict()` of every document-typed base, in base
order, later bases overwriting. -/
def baseDocsFields (st : PState) (bases : List Base) : ODict Field :=
  bases.foldl (fun acc b =>
    match b with
    | Base.doc id => (classMapping st id).foldl (fun a kv => odInsert a kv.1 kv.2) acc
    | Base.plain _ => acc) []

/-- `nondoc_fields` of `NonDocumentInheritanceMixin.__new__`: the
`Field`-valued entries of every non-document base's `__dict__`, in base
order, later bases overwriting earlier candidates. -/
def nondocFields (bases : List Base) : ODict Field :=
  bases.foldl (fun acc b =>
    match b with
    | Base.doc _ => acc
    | Base.plain d =>
        d.foldl (fun a kv =>
          match kv.2 with
          | Attr.field f => odInsert a kv.1 f
          | Attr.other _ => a) acc) []

/-- The inheritance-merge loop of `NonDocumentInheritanceMixin.__new__`: a
candidate is copied into `attrs` only if the class does not declare the name
itself and no document-typed base's mapping covers it. -/
def mergedAttrs (attrs : ODict Attr) (ndf bdf : ODict Field) : ODict Attr :=
  ndf.foldl (fun a kv =>
    if odGet a kv.1 = none ∧ odGet bdf kv.1 = none
    then odInsert a kv.1 (Attr.field kv.2) else a) attrs

/-- The merge loop of `NonDocumentInheritanceMixin.__new__` reuses the
`name` parameter as its loop variable, so after a non-empty iteration the
class name passed on to `type.__new__` is the last candidate key. -/
def shadowedName (nm : String) (ndf : ODict Field) : String :=
  match ndf.getLast? with
  | some kv => kv.1
  | none => nm

/-- The `__name__` the constructed class ends up with, given the declared
name and the bases (see `shadowedName`). -/
def resultName (nm : String) (bases : List Base) : String :=
  shadowedName nm (nondocFields bases)

/-- The external mapping foundation (`elasticsearch_dsl` `DocTypeMeta`),
modelled from its boundary contract in the spec: it finalizes the class's
mapping from the document bases' mappings and the declared `Field`
attributes (declared fields overriding), allocates the class object and
returns it; the new heap index is the class reference. -/
def esDocTypeNew (st : PState) (nm : String) (bases : List Base) (attrs : ODict Attr) :
    PState × Nat :=
  let inherited : ODict Field :=
    bases.foldl (fun m b =>
      match b with
      | Base.doc id => (classMapping st id).foldl (fun a kv => odInsert a kv.1 kv.2) m
      | Base.plain _ => m) []
  let mapping : ODict Field :=
    attrs.foldl (fun m kv =>
      match kv.2 with
      | Attr.field f => odInsert m kv.1 f
      | Attr.other _ => m) inherited
  ({ st with heap := st.heap ++ [{ name := nm, mapping := mapping }] }, st.heap.length)

/-- Modelled from the spec: `new_class._relationships()` of `fields.py` —
the names of the relationship-typed fields of a finalized mapping. -/
def relNames (m : ODict Field) : List String :=
  (m.filter (fun kv => kv.2.isRel)).map Prod.fst

/-- The synthesized backref field for originating field `n` with request
`bk`: `Relationship(new_class.__name__, **backref_kwargs)` after the `name`
pop and the `uselist` default, with its back-populate marker set to the
originating field's name. -/
def backrefFieldFor (newId : Nat) (n : String) (bk : BackrefKwargs) : Field :=
  { Relationship newId (bk.uselist.getD false) bk.opts with backPopulates := some n }

/-- `field._back_populates = field_name` as a mapping update: set the marker
of the field currently stored under `n`. -/
def setMarker (m : ODict Field) (n fn : String) : ODict Field :=
  match odGet m n with
  | some f => odInsert m n { f with backPopulates := some fn }
  | none => m

/-- One iteration of the backref loop of `BackrefGeneratingDocMixin.__new__`
for relationship name `n`: fetch the field from the new class's mapping,
skip it when it carries no inverse request, otherwise build the backref
field, insert it into the target class's mapping under the requested name
and set the originating field's back-populate marker. -/
def backrefStep (newId : Nat) (st : PState) (n : String) : PState :=
  match odGet (classMapping st newId) n with
  | none => st
  | some field =>
    match field.backrefKwargs with
    | none => st
    | some bk =>
      let st1 := updateMapping st field.docClass
        (fun mp => odInsert mp bk.name (backrefFieldFor newId n bk))
      updateMapping st1 newId (fun mp => setMarker mp n bk.name)

/-- The backref loop of `BackrefGeneratingDocMixin.__new__` over the
relationship names of the newly finalized class. -/
def backrefSynthesis (newId : Nat) (st : PState) : PState :=
  (relNames (classMapping st newId)).foldl (backrefStep newId) st

/-- `BackrefGeneratingDocMixin.__new__`: call the foundation, then run
backref synthesis on the finished mapping. -/
def backrefGeneratingNew (st : PState) (nm : String) (bases : List Base)
    (attrs : ODict Attr) : PState × Nat :=
  let res := esDocTypeNew st nm bases attrs
  let st2 := backrefSynthesis res.2 res.1
  ({ st2 with trace := st2.trace ++ [StageEvent.backrefSynth] }, res.2)

/-- `NonDocumentInheritanceMixin.__new__`: collect the document-base field
names and the non-document candidates, merge the surviving candidates into
`attrs`, then call the next metaclass with the (loop-shadowed) name. -/
def nonDocumentInheritanceNew (st : PState) (nm : String) (bases : List Base)
    (attrs : ODict Attr) : PState × Nat :=
  let bdf := baseDocsFields st bases
  let ndf := nondocFields bases
  let attrs2 := mergedAttrs attrs ndf bdf
  let nm2 := shadowedName nm ndf
  let st1 := { st with trace := st.trace ++ [StageEvent.inheritMerge] }
  backrefGeneratingNew st1 nm2 bases attrs2

/-- `RegisteredDocMixin.__new__`: call the next metaclass first, then insert
the constructed class into `_document_registry` keyed by its `__name__`. -/
def registeredDocNew (st : PState) (nm : String) (bases : List Base)
    (attrs : ODict Attr) : PState × Nat :=
  let res := nonDocumentInheritanceNew st nm bases attrs
  let nm2 :=
    match classAt res.1 res.2 with
    | some c => c.name
    | none => nm
  ({ res.1 with registry := odInsert res.1.registry nm2 res.2,
                trace := res.1.trace ++ [StageEvent.register] }, res.2)

/-- `DocTypeMeta`: the full pipeline triggered by a document class
declaration. -/
def docTypeMetaNew (st : PState) (nm : String) (bases : List Base)
    (attrs : ODict Attr) : PState × Nat :=
  registeredDocNew st nm bases attrs

/-- A document class declaration: name, bases, declared attributes. -/
structure Decl where
  nm : String
  bases : List Base
  attrs : ODict Attr

/-- Run a sequence of class declarations. -/
def runAll (st : PState) : List Decl → PState
  | [] => st
  | d :: ds => runAll (docTypeMetaNew st d.nm d.bases d.attrs).1 ds

/-- Position of the first occurrence of an event in a trace (length when
absent). -/
def eventPos : List StageEvent → StageEvent → Nat
  | [], _ => 0
  | e :: rest, x => if e = x then 0 else eventPos rest x + 1

/-- The inverse-request slot of a relationship field: target class reference
and requested target field name, when the field exists and carries a
request. -/
def slotOf (m : ODict Field) (n : String) : Option (Nat × String) :=
  match odGet m n with
  | some f =>
      match f.backrefKwargs with
      | some bk => some (f.docClass, bk.name)
      | none => none
  | none => none

/-- Per-field well-formedness for backref synthesis: a requested target is a
live class reference, and a request aimed back at the class under
construction must not name one of its own relationship slots. -/
def reqOk (st : PState) (newId : Nat) (m : ODict Field) (rels : List String)
    (n : String) : Bool :=
  match slotOf m n with
  | none => true
  | some (t, fn) =>
      decide (t < st.heap.length) && (decide (t ≠ newId) || decide (fn ∉ rels))

/-- No two inverse requests of the class under construction name the same
slot of the same target class (the spec's "callers must avoid naming
collisions"). -/
def slotsDistinct (m : ODict Field) : List String → Bool
  | [] => true
  | n :: rest =>
      (match slotOf m n with
       | none => true
       | some s => rest.all (fun n2 => decide (slotOf m n2 ≠ some s))) &&
      slotsDistinct m rest

/-- Well-formedness of a finalized class for backref synthesis: a live class
reference, duplicate-free mapping keys, valid requests and collision-free
slots.  These are exactly the preconditions the spec states for the stage:
target classes are already constructed, and naming collisions are the
caller's responsibility. -/
def backrefWF (st : PState) (newId : Nat) : Bool :=
  decide (newId < st.heap.length) &&
  decide ((odKeys (classMapping st newId)).Nodup) &&
  (relNames (classMapping st newId)).all
    (reqOk st newId (classMapping st newId) (relNames (classMapping st newId))) &&
  slotsDistinct (classMapping st newId) (relNames (classMapping st newId))

/-- The backref-pair property for originating field `n` (with respect to the
initial mapping `m` of the class `newId` under construction) in state `s`:
the counterpart sits in the target class under the requested name with its
marker naming `n`, and the originating field's marker names the target
field. -/
def GoodAt (m : ODict Field) (newId : Nat) (s : PState) (n : String) : Prop :=
  ∀ f bk, odGet m n = some f → f.backrefKwargs = some bk →
    odGet (classMapping s f.docClass) bk.name = some (backrefFieldFor newId n bk) ∧
    odGet (classMapping s newId) n = some { f with backPopulates := some bk.name }

/-- Specification-side description of the candidate the spec says survives
for a name: the `Field`-valued attribute of the non-document base occurring
latest in declaration order (compared below against the collection the code
computes). -/
def lastPlainField (bases : List Base) (n : String) : Option Field :=
  bases.reverse.findSome? (fun b =>
    match b with
    | Base.doc _ => none
    | Base.plain d =>
        match odGet d n with
        | some (Attr.field f) => some f
        | _ => none)

theorem odGet_insert_self {α : Type} (d : ODict α) (k : String) (v : α) :
    odGet (odInsert d k v) k = some v := by
  induction d with
  | nil => simp [odInsert, odGet]
  | cons kv rest ih =>
      obtain ⟨k2, v2⟩ := kv
      by_cases h2 : k2 = k
      · subst h2; simp [odInsert, odGet]
      · simp [odInsert, odGet, h2, ih]

theorem odGet_insert_ne {α : Type} (d : ODict α) {k k2 : String} (v : α) (h : k2 ≠ k) :
    odGet (odInsert d k v) k2 = odGet d k2 := by
  induction d with
  | nil => simp [odInsert, odGet, Ne.symm h]
  | cons kv rest ih =>
      obtain ⟨k3, v3⟩ := kv
      by_cases h3 : k3 = k
      · subst h3; simp [odInsert, odGet, Ne.symm h]
      · simp [odInsert, odGet, h3, ih]

theorem odGet_eq_none_iff {α : Type} (d : ODict α) (k : String) :
    odGet d k = none ↔ k ∉ odKeys d := by
  induction d with
  | nil => simp [odGet, odKeys]
  | cons kv rest ih =>
      obtain ⟨k2, v2⟩ := kv
      by_cases h2 : k2 = k
      · subst h2; simp [odGet, odKeys]
      · simp [odGet, odKeys, h2, Ne.symm h2, ih]

theorem odKeys_insert {α : Type} (d : ODict α) (k : String) (v : α) :
    odKeys (odInsert d k v) = if k ∈ odKeys d then odKeys d else odKeys d ++ [k] := by
  induction d with
  | nil => simp [odInsert, odKeys]
  | cons kv rest ih =>
      obtain ⟨k2, v2⟩ := kv
      by_cases h2 : k2 = k
      · subst h2; simp [odInsert, odKeys]
      · simp only [odInsert, odKeys, List.map_cons, h2, if_false] at ih ⊢
        rw [ih]
        by_cases hm : k ∈ List.map Prod.fst rest <;>
          simp [hm, List.mem_cons, Ne.symm h2]

theorem odKeys_insert_nodup {α : Type} {d : ODict α} (hd : (odKeys d).Nodup)
    (k : String) (v : α) : (odKeys (odInsert d k v)).Nodup := by
  rw [odKeys_insert]
  split
  · exact hd
  · next hk => simp [List.nodup_append, hd, hk]

theorem updateMapping_heap_length (st : PState) (id : Nat) (h : ODict Field → ODict Field) :
    (updateMapping st id h).heap.length = st.heap.length := by
  unfold updateMapping
  split <;> simp

theorem updateMapping_registry (st : PState) (id : Nat) (h : ODict Field → ODict Field) :
    (updateMapping st id h).registry = st.registry := by
  unfold updateMapping
  split <;> rfl

theorem updateMapping_trace (st : PState) (id : Nat) (h : ODict Field → ODict Field) :
    (updateMapping st id h).trace = st.trace := by
  unfold updateMapping
  split <;> rfl

theorem classMapping_updateMapping_self {st : PState} {id : Nat}
    (hid : id < st.heap.length) (h : ODict Field → ODict Field) :
    classMapping (updateMapping st id h) id = h (classMapping st id) := by
  unfold updateMapping classMapping
  cases hc : st.heap[id]? with
  | none => exact absurd (List.getElem?_eq_none_iff.mp hc) (Nat.not_le_of_lt hid)
  | some c => simp [hc, List.getElem?_set_eq_of_lt _ hid]

theorem classMapping_updateMapping_ne {st : PState} {id j : Nat} (hj : j ≠ id)
    (h : ODict Field → ODict Field) :
    classMapping (updateMapping st id h) j = classMapping st j := by
  unfold updateMapping classMapping
  cases hc : st.heap[id]? with
  | none => rfl
  | some c => simp [hc, List.getElem?_set_ne (Ne.symm hj)]

theorem classNameAt_updateMapping (st : PState) (id : Nat)
    (h : ODict Field → ODict Field) (j : Nat) :
    classNameAt (updateMapping st id h) j = classNameAt st j := by
  unfold updateMapping classNameAt
  cases hc : st.heap[id]? with
  | none => rfl
  | some c =>
      by_cases hj : j = id
      · subst hj
        have hid : j < st.heap.length := by
          by_contra hge
          rw [List.getElem?_eq_none (Nat.le_of_not_lt hge)] at hc
          exact Option.noConfusion hc
        simp [hc, List.getElem?_set_eq_of_lt _ hid]
      · simp [List.getElem?_set_ne (Ne.symm hj)]

theorem odGet_setMarker_ne (mp : ODict Field) {n k : String} (fn : String) (h : k ≠ n) :
    odGet (setMarker mp n fn) k = odGet mp k := by
  unfold setMarker
  split
  · exact odGet_insert_ne _ _ h
  · rfl

theorem odGet_setMarker_self {mp : ODict Field} {n : String} {f : Field} (fn : String)
    (h : odGet mp n = some f) :
    odGet (setMarker mp n fn) n = some { f with backPopulates := some fn } := by
  unfold setMarker
  rw [h]
  exact odGet_insert_self _ _ _

theorem backrefStep_registry (newId : Nat) (st : PState) (n : String) :
    (backrefStep newId st n).registry = st.registry := by
  unfold backrefStep
  split
  · rfl
  · split
    · rfl
    · simp [updateMapping_registry]

theorem backrefStep_trace (newId : Nat) (st : PState) (n : String) :
    (backrefStep newId st n).trace = st.trace := by
  unfold backrefStep
  split
  · rfl
  · split
    · rfl
    · simp [updateMapping_trace]

theorem backrefStep_heap_length (newId : Nat) (st : PState) (n : String) :
    (backrefStep newId st n).heap.length = st.heap.length := by
  unfold backrefStep
  split
  · rfl
  · split
    · rfl
    · simp [updateMapping_heap_length]

theorem backrefStep_classNameAt (newId : Nat) (st : PState) (n : String) (j : Nat) :
    classNameAt (backrefStep newId st n) j = classNameAt st j := by
  unfold backrefStep
  split
  · rfl
  · split
    · rfl
    · simp [classNameAt_updateMapping]

theorem foldl_backrefStep_registry (newId : Nat) (l : List String) (st : PState) :
    (l.foldl (backrefStep newId) st).registry = st.registry := by
  induction l generalizing st with
  | nil => rfl
  | cons n rest ih => simp [List.foldl_cons, ih, backrefStep_registry]

theorem foldl_backrefStep_trace (newId : Nat) (l : List String) (st : PState) :
    (l.foldl (backrefStep newId) st).trace = st.trace := by
  induction l generalizing st with
  | nil => rfl
  | cons n rest ih => simp [List.foldl_cons, ih, backrefStep_trace]

theorem foldl_backrefStep_heap_length (newId : Nat) (l : List String) (st : PState) :
    (l.foldl (backrefStep newId) st).heap.length = st.heap.length := by
  induction l generalizing st with
  | nil => rfl
  | cons n rest ih => simp [List.foldl_cons, ih, backrefStep_heap_length]

theorem foldl_backrefStep_classNameAt (newId : Nat) (l : List String) (st : PState)
    (j : Nat) : classNameAt (l.foldl (backrefStep newId) st) j = classNameAt st j := by
  induction l generalizing st with
  | nil => rfl
  | cons n rest ih => simp [List.foldl_cons, ih, backrefStep_classNameAt]

theorem classNameAt_set_trace (st : PState) (t : List StageEvent) (j : Nat) :
    classNameAt { st with trace := t } j = classNameAt st j := rfl

theorem nonDocumentInheritanceNew_state (st : PState) (nm : String) (bases : List Base)
    (attrs : ODict Attr) :
    (nonDocumentInheritanceNew st nm bases attrs).1.registry = st.registry ∧
    (nonDocumentInheritanceNew st nm bases attrs).2 = st.heap.length ∧
    classNameAt (nonDocumentInheritanceNew st nm bases attrs).1 st.heap.length
      = some (resultName nm bases) := by
  unfold nonDocumentInheritanceNew backrefGeneratingNew backrefSynthesis esDocTypeNew
  refine ⟨?_, rfl, ?_⟩
  · simp [foldl_backrefStep_registry]
  · rw [classNameAt_set_trace, foldl_backrefStep_classNameAt]
    simp [classNameAt, List.getElem?_concat_length, resultName]

theorem docTypeMetaNew_newId (st : PState) (nm : String) (bases : List Base)
    (attrs : ODict Attr) : (docTypeMetaNew st nm bases attrs).2 = st.heap.length := rfl

theorem docTypeMetaNew_heap (st : PState) (nm : String) (bases : List Base)
    (attrs : ODict Attr) :
    (docTypeMetaNew st nm bases attrs).1.heap
      = (nonDocumentInheritanceNew st nm bases attrs).1.heap := rfl

theorem docTypeMetaNew_registry (st : PState) (nm : String) (bases : List Base)
    (attrs : ODict Attr) :
    (docTypeMetaNew st nm bases attrs).1.registry
      = odInsert st.registry (resultName nm bases) st.heap.length := by
  obtain ⟨hreg, hid, hname⟩ := nonDocumentInheritanceNew_state st nm bases attrs
  show (registeredDocNew st nm bases attrs).1.registry = _
  unfold registeredDocNew
  generalize hres : nonDocumentInheritanceNew st nm bases attrs = res at hreg hid hname ⊢
  dsimp only
  rw [hid]
  unfold classNameAt at hname
  cases hcc : res.1.heap[st.heap.length]? with
  | none => rw [hcc] at hname; exact absurd hname (by simp)
  | some c =>
      rw [hcc] at hname
      have hcn : c.name = resultName nm bases := by simpa using hname
      show odInsert res.1.registry
        (match classAt res.1 st.heap.length with
         | some c => c.name
         | none => nm) st.heap.length = _
      rw [show classAt res.1 st.heap.length = some c from hcc]
      rw [hreg]
      dsimp only
      rw [hcn]

/-- C2 (amended): the pipeline runs exactly once per declaration, in the
fixed effect order inheritance merge, then backref synthesis, then registry
insertion — registration is the last stage, not the first. -/
theorem c2_pipeline_stage_order (st : PState) (nm : String) (bases : List Base)
    (attrs : ODict Attr) :
    (docTypeMetaNew st nm bases attrs).1.trace
      = st.trace
        ++ [StageEvent.inheritMerge, StageEvent.backrefSynth, StageEvent.register] := by
  unfold docTypeMetaNew registeredDocNew nonDocumentInheritanceNew backrefGeneratingNew
    backrefSynthesis esDocTypeNew
  simp [foldl_backrefStep_trace]

/-- C2 counterexample: on a concrete declaration the registry-insertion
event does not precede the inheritance-merge and backref-synthesis events,
refuting the claim that registration runs first. -/
theorem c2_registration_not_first :
    ¬ (eventPos ((docTypeMetaNew ⟨[], [], []⟩ "A" [] []).1.trace) StageEvent.register
         < eventPos ((docTypeMetaNew ⟨[], [], []⟩ "A" [] []).1.trace)
             StageEvent.inheritMerge
       ∧ eventPos ((docTypeMetaNew ⟨[], [], []⟩ "A" [] []).1.trace) StageEvent.register
         < eventPos ((docTypeMetaNew ⟨[], [], []⟩ "A" [] []).1.trace)
             StageEvent.backrefSynth) := by
  decide

/-- C4: construction allocates the new class and inserts it into the
registry keyed by the constructed class's name; an existing entry under that
name is silently overwritten and entries under other names are untouched. -/
theorem c4_registry_keying_last_write_wins (st : PState) (nm : String)
    (bases : List Base) (attrs : ODict Attr) :
    (docTypeMetaNew st nm bases attrs).2 = st.heap.length ∧
    (∃ c, classAt (docTypeMetaNew st nm bases attrs).1
            (docTypeMetaNew st nm bases attrs).2 = some c ∧
          c.name = resultName nm bases) ∧
    odGet (docTypeMetaNew st nm bases attrs).1.registry (resultName nm bases)
      = some (docTypeMetaNew st nm bases attrs).2 ∧
    ∀ k, k ≠ resultName nm bases →
      odGet (docTypeMetaNew st nm bases attrs).1.registry k = odGet st.registry k := by
  obtain ⟨hreg, hid, hname⟩ := nonDocumentInheritanceNew_state st nm bases attrs
  refine ⟨rfl, ?_, ?_, ?_⟩
  · have hheap := docTypeMetaNew_heap st nm bases attrs
    rw [docTypeMetaNew_newId]
    unfold classNameAt at hname
    cases hcc : (nonDocumentInheritanceNew st nm bases attrs).1.heap[st.heap.length]? with
    | none => rw [hcc] at hname; exact absurd hname (by simp)
    | some c =>
        rw [hcc] at hname
        exact ⟨c, by unfold classAt; rw [hheap, hcc], by simpa using hname⟩
  · rw [docTypeMetaNew_registry, docTypeMetaNew_newId]
    exact odGet_insert_self _ _ _
  · intro k hk
    rw [docTypeMetaNew_registry]
    exact odGet_insert_ne _ _ hk

theorem c4_registry_keying_last_write_wins_witness :
    odGet (docTypeMetaNew ⟨[], [("A", 5)], []⟩ "A" [] []).1.registry
        (resultName "A" []) = some 0 ∧
    odGet (docTypeMetaNew ⟨[], [("A", 5), ("B", 7)], []⟩ "A" [] []).1.registry "B"
      = some 7 :=
  ⟨(c4_registry_keying_last_write_wins ⟨[], [("A", 5)], []⟩ "A" [] []).2.2.1,
   (c4_registry_keying_last_write_wins ⟨[], [("A", 5), ("B", 7)], []⟩ "A" [] []).2.2.2
     "B" (by decide)⟩

/-- C6: an entry of the registry keeps resolving, through `get_document_cls`,
to the exact class object registered under that name, across any further
declarations that do not re-register the name. -/
theorem c6_registry_lookup_stable (st : PState) (nm0 : String) (id : Nat)
    (decls : List Decl) (h : odGet st.registry nm0 = some id)
    (hd : ∀ d ∈ decls, resultName d.nm d.bases ≠ nm0) :
    get_document_cls (runAll st decls) nm0 = Except.ok id := by
  induction decls generalizing st with
  | nil => simp [runAll, get_document_cls, h]
  | cons d ds ih =>
      simp only [runAll]
      apply ih
      · rw [docTypeMetaNew_registry]
        rw [odGet_insert_ne _ _ (Ne.symm (hd d (List.mem_cons_self d ds)))]
        exact h
      · intro d2 hd2
        exact hd d2 (List.mem_cons_of_mem _ hd2)

theorem c6_registry_lookup_stable_witness :
    get_document_cls
        (runAll ⟨[⟨"A", []⟩], [("A", 0)], []⟩ [⟨"B", [], []⟩, ⟨"C", [], []⟩]) "A"
      = Except.ok 0 :=
  c6_registry_lookup_stable ⟨[⟨"A", []⟩], [("A", 0)], []⟩ "A" 0
    [⟨"B", [], []⟩, ⟨"C", [], []⟩] (by decide) (by decide)

/-- C7: looking up a name absent from the registry fails with the `KeyError`
branch, surfaced directly to the caller; `get_document_cls` is a pure read,
so the registry is unchanged by the failed lookup. -/
theorem c7_unknown_lookup_fails (st : PState) (nm : String)
    (h : odGet st.registry nm = none) :
    get_document_cls st nm = Except.error nm := by
  simp [get_document_cls, h]

theorem c7_unknown_lookup_fails_witness :
    get_document_cls ⟨[], [("A", 0)], []⟩ "DoesNotExist"
      = Except.error "DoesNotExist" :=
  c7_unknown_lookup_fails ⟨[], [("A", 0)], []⟩ "DoesNotExist" (by decide)

theorem foldl_indexDocType (l : List Nat) (i : ESIndex) :
    (l.foldl indexDocType i).docTypes = i.docTypes ++ l := by
  induction l generalizing i with
  | nil => simp
  | cons x xs ih => simp [List.foldl_cons, indexDocType, ih]

/-- C9: `create_index` with no explicit class list adds exactly the classes
of the registry snapshot at call time, in registry order. -/
theorem c9_create_index_default_scope (st : PState) (index_name : String) :
    (create_index st index_name none).docTypes = odValues (get_document_classes st) := by
  unfold create_index
  simp [foldl_indexDocType]

theorem foldl_insert_keys_nodup {α β : Type} (step : ODict α → β → ODict α)
    (hstep : ∀ a x, (odKeys a).Nodup → (odKeys (step a x)).Nodup)
    (l : List β) (a : ODict α) (ha : (odKeys a).Nodup) :
    (odKeys (l.foldl step a)).Nodup := by
  induction l generalizing a with
  | nil => exact ha
  | cons x xs ih => exact ih _ (hstep a x ha)

theorem nondocFields_keys_nodup (bases : List Base) :
    (odKeys (nondocFields bases)).Nodup := by
  unfold nondocFields
  apply foldl_insert_keys_nodup
  · intro a b hb
    cases b with
    | doc id => exact hb
    | plain d =>
        apply foldl_insert_keys_nodup
        · intro a2 kv h2
          obtain ⟨k, v⟩ := kv
          cases v with
          | field f => exact odKeys_insert_nodup h2 _ _
          | other v2 => exact h2
        · exact hb
  · simp [odKeys]

theorem odGet_mergedAttrs (ndf : ODict Field) (attrs : ODict Attr) (bdf : ODict Field)
    (n : String) (hnd : (odKeys ndf).Nodup) :
    odGet (mergedAttrs attrs ndf bdf) n =
      if odGet attrs n = none ∧ odGet bdf n = none
      then Option.map Attr.field (odGet ndf n)
      else odGet attrs n := by
  induction ndf generalizing attrs with
  | nil =>
      by_cases h : odGet attrs n = none ∧ odGet bdf n = none
      · simp [mergedAttrs, odGet, h, h.1]
      · simp [mergedAttrs, odGet, h]
  | cons kv rest ih =>
      obtain ⟨k, f0⟩ := kv
      have hcons := List.nodup_cons.mp
        (by simpa only [odKeys, List.map_cons] using hnd)
      have hk2 : k ∉ odKeys rest := hcons.1
      have hrest : (odKeys rest).Nodup := hcons.2
      have hfold : mergedAttrs attrs ((k, f0) :: rest) bdf
          = mergedAttrs (if odGet attrs k = none ∧ odGet bdf k = none
              then odInsert attrs k (Attr.field f0) else attrs) rest bdf := rfl
      rw [hfold, ih _ hrest]
      by_cases hkn : k = n
      · subst hkn
        have hrnone : odGet rest k = none := (odGet_eq_none_iff rest k).mpr hk2
        by_cases hc : odGet attrs k = none ∧ odGet bdf k = none
        · rw [if_pos hc]
          simp [odGet_insert_self, odGet, hrnone, hc, hc.1, hc.2]
        · rw [if_neg hc]
          simp [odGet, hc]
      · have hndf : odGet ((k, f0) :: rest) n = odGet rest n := by simp [odGet, hkn]
        by_cases hc : odGet attrs k = none ∧ odGet bdf k = none
        · rw [if_pos hc, odGet_insert_ne _ _ (Ne.symm hkn), hndf]
        · rw [if_neg hc, hndf]

/-- C3: a candidate field collected from the non-document bases is copied
into the class's attribute set exactly when the class does not directly
declare the name and no document-typed base's mapping contains it;
otherwise the directly declared attribute (or its absence) is untouched. -/
theorem c3_field_inheritance_conditions (st : PState) (bases : List Base)
    (attrs : ODict Attr) (n : String) (f : Field)
    (hf : odGet (nondocFields bases) n = some f) :
    ((odGet attrs n = none ∧ odGet (baseDocsFields st bases) n = none) →
       odGet (mergedAttrs attrs (nondocFields bases) (baseDocsFields st bases)) n
         = some (Attr.field f)) ∧
    (¬ (odGet attrs n = none ∧ odGet (baseDocsFields st bases) n = none) →
       odGet (mergedAttrs attrs (nondocFields bases) (baseDocsFields st bases)) n
         = odGet attrs n) := by
  have h := odGet_mergedAttrs (nondocFields bases) attrs (baseDocsFields st bases) n
    (nondocFields_keys_nodup bases)
  constructor
  · intro hc
    rw [h, if_pos hc, hf]
    rfl
  · intro hc
    rw [h, if_neg hc]

theorem c3_field_inheritance_conditions_witness :
    odGet (mergedAttrs []
        (nondocFields [Base.plain [("g", Attr.field ⟨1, false, 0, false, [], none, none⟩)]])
        (baseDocsFields ⟨[], [], []⟩
          [Base.plain [("g", Attr.field ⟨1, false, 0, false, [], none, none⟩)]])) "g"
      = some (Attr.field ⟨1, false, 0, false, [], none, none⟩) ∧
    odGet (mergedAttrs [("g", Attr.field ⟨2, false, 0, false, [], none, none⟩)]
        (nondocFields [Base.plain [("g", Attr.field ⟨1, false, 0, false, [], none, none⟩)]])
        (baseDocsFields ⟨[], [], []⟩
          [Base.plain [("g", Attr.field ⟨1, false, 0, false, [], none, none⟩)]])) "g"
      = odGet [("g", Attr.field ⟨2, false, 0, false, [], none, none⟩)] "g" :=
  ⟨(c3_field_inheritance_conditions ⟨[], [], []⟩
      [Base.plain [("g", Attr.field ⟨1, false, 0, false, [], none, none⟩)]] [] "g"
      ⟨1, false, 0, false, [], none, none⟩ (by decide)).1 (by decide),
   (c3_field_inheritance_conditions ⟨[], [], []⟩
      [Base.plain [("g", Attr.field ⟨1, false, 0, false, [], none, none⟩)]]
      [("g", Attr.field ⟨2, false, 0, false, [], none, none⟩)] "g"
      ⟨1, false, 0, false, [], none, none⟩ (by decide)).2 (by decide)⟩

theorem odGet_fold_fieldEntries (d : ODict Attr) (acc : ODict Field) (n : String)
    (hd : (odKeys d).Nodup) :
    odGet (d.foldl (fun a kv =>
        match kv.2 with
        | Attr.field f => odInsert a kv.1 f
        | Attr.other _ => a) acc) n
      = match odGet d n with
        | some (Attr.field f) => some f
        | _ => odGet acc n := by
  induction d generalizing acc with
  | nil => simp [odGet]
  | cons kv rest ih =>
      obtain ⟨k, v⟩ := kv
      have hcons := List.nodup_cons.mp
        (by simpa only [odKeys, List.map_cons] using hd)
      have hk2 : k ∉ odKeys rest := hcons.1
      have hrest : (odKeys rest).Nodup := hcons.2
      rw [List.foldl_cons, ih _ hrest]
      by_cases hkn : k = n
      · subst hkn
        have hrnone : odGet rest k = none := (odGet_eq_none_iff rest k).mpr hk2
        cases v with
        | field f => simp [odGet, hrnone, odGet_insert_self]
        | other v2 => simp [odGet, hrnone]
      · cases v with
        | field f => simp [odGet, hkn, odGet_insert_ne _ _ (Ne.symm hkn)]
        | other v2 => simp [odGet, hkn]

theorem lastPlainField_cons (b : Base) (rest : List Base) (n : String) :
    lastPlainField (b :: rest) n
      = (lastPlainField rest n).or
          (match b with
           | Base.doc _ => none
           | Base.plain d =>
               match odGet d n with
               | some (Attr.field f) => some f
               | _ => none) := by
  unfold lastPlainField
  rw [List.reverse_cons, List.findSome?_append]
  cases b with
  | doc id => simp [List.findSome?]
  | plain d =>
      cases hdg : odGet d n with
      | none => simp [List.findSome?, hdg]
      | some a =>
          cases a with
          | field f => simp [List.findSome?, hdg]
          | other v2 => simp [List.findSome?, hdg]

theorem odGet_nondocFold (bases : List Base) (acc : ODict Field) (n : String)
    (hnd : ∀ d, Base.plain d ∈ bases → (odKeys d).Nodup) :
    odGet (bases.foldl (fun acc b =>
        match b with
        | Base.doc _ => acc
        | Base.plain d =>
            d.foldl (fun a kv =>
              match kv.2 with
              | Attr.field f => odInsert a kv.1 f
              | Attr.other _ => a) acc) acc) n
      = match lastPlainField bases n with
        | some f => some f
        | none => odGet acc n := by
  induction bases generalizing acc with
  | nil => simp [lastPlainField]
  | cons b rest ih =>
      rw [List.foldl_cons]
      rw [ih _ (fun d hd => hnd d (List.mem_cons_of_mem _ hd))]
      rw [lastPlainField_cons]
      cases hr : lastPlainField rest n with
      | some f => simp [Option.or]
      | none =>
          cases b with
          | doc id => simp [Option.or]
          | plain d =>
              have hdn := hnd d (List.mem_cons_self _ _)
              rw [odGet_fold_fieldEntries d acc n hdn]
              cases hdg : odGet d n with
              | none => simp [Option.or, hdg]
              | some a =>
                  cases a with
                  | field f => simp [Option.or, hdg]
                  | other v2 => simp [Option.or, hdg]

/-- C5: among the non-document bases, the candidate the collection retains
for a name is the `Field` declared by the base occurring latest in the
declaration-order iteration. -/
theorem c5_last_declared_base_wins (bases : List Base) (n : String)
    (hnd : ∀ d, Base.plain d ∈ bases → (odKeys d).Nodup) :
    odGet (nondocFields bases) n = lastPlainField bases n := by
  unfold nondocFields
  rw [odGet_nondocFold bases [] n hnd]
  cases lastPlainField bases n <;> simp [odGet]

theorem c5_last_declared_base_wins_witness :
    odGet (nondocFields
        [Base.plain [("x", Attr.field ⟨1, false, 0, false, [], none, none⟩)],
         Base.plain [("x", Attr.field ⟨2, false, 0, false, [], none, none⟩)]]) "x"
      = lastPlainField
          [Base.plain [("x", Attr.field ⟨1, false, 0, false, [], none, none⟩)],
           Base.plain [("x", Attr.field ⟨2, false, 0, false, [], none, none⟩)]] "x" ∧
    lastPlainField
        [Base.plain [("x", Attr.field ⟨1, false, 0, false, [], none, none⟩)],
         Base.plain [("x", Attr.field ⟨2, false, 0, false, [], none, none⟩)]] "x"
      = some ⟨2, false, 0, false, [], none, none⟩ :=
  ⟨c5_last_declared_base_wins
      [Base.plain [("x", Attr.field ⟨1, false, 0, false, [], none, none⟩)],
       Base.plain [("x", Attr.field ⟨2, false, 0, false, [], none, none⟩)]] "x"
      (by
        intro d hd
        simp only [List.mem_cons, List.mem_singleton] at hd
        rcases hd with hd | hd | hd <;> (try cases hd) <;> decide),
   by decide⟩

theorem slotOf_eq {m : ODict Field} {n : String} {f : Field} {bk : BackrefKwargs}
    (hf : odGet m n = some f) (hbk : f.backrefKwargs = some bk) :
    slotOf m n = some (f.docClass, bk.name) := by
  simp only [slotOf, hf, hbk]

theorem reqOk_elim {st : PState} {newId : Nat} {m : ODict Field} {rels : List String}
    {n : String} (h : reqOk st newId m rels n = true) {t : Nat} {fn : String}
    (hs : slotOf m n = some (t, fn)) :
    t < st.heap.length ∧ (t = newId → fn ∉ rels) := by
  unfold reqOk at h
  simp only [hs] at h
  rw [Bool.and_eq_true, Bool.or_eq_true] at h
  refine ⟨of_decide_eq_true h.1, ?_⟩
  intro ht
  rcases h.2 with h2 | h2
  · exact absurd ht (of_decide_eq_true h2)
  · exact of_decide_eq_true h2

theorem slotsDistinct_elim (m : ODict Field) (l : List String)
    (h : slotsDistinct m l = true) :
    ∀ a ∈ l, ∀ b ∈ l, a ≠ b → ∀ s, slotOf m a = some s → slotOf m b ≠ some s := by
  induction l with
  | nil => intro a ha; exact absurd ha (List.not_mem_nil a)
  | cons n rest ih =>
      rw [slotsDistinct, Bool.and_eq_true] at h
      obtain ⟨h1, h2⟩ := h
      intro a ha b hb hab s hsa
      rcases List.mem_cons.mp ha with rfl | ha2
      · rcases List.mem_cons.mp hb with rfl | hb2
        · exact absurd rfl hab
        · simp only [hsa] at h1
          exact of_decide_eq_true (List.all_eq_true.mp h1 b hb2)
      · rcases List.mem_cons.mp hb with rfl | hb2
        · intro hsb
          simp only [hsb] at h1
          exact absurd hsa (of_decide_eq_true (List.all_eq_true.mp h1 a ha2))
        · exact ih h2 a ha2 b hb2 hab s hsa

theorem backrefStep_spec (newId : Nat) (s : PState) (n0 : String) (f : Field)
    (bk : BackrefKwargs)
    (hget : odGet (classMapping s newId) n0 = some f)
    (hbk : f.backrefKwargs = some bk)
    (htlen : f.docClass < s.heap.length)
    (hNlen : newId < s.heap.length)
    (hns : f.docClass = newId → bk.name ≠ n0) :
    (backrefStep newId s n0).heap.length = s.heap.length ∧
    odGet (classMapping (backrefStep newId s n0) f.docClass) bk.name
      = some (backrefFieldFor newId n0 bk) ∧
    odGet (classMapping (backrefStep newId s n0) newId) n0
      = some { f with backPopulates := some bk.name } ∧
    (∀ j x, ¬ (j = f.docClass ∧ x = bk.name) → ¬ (j = newId ∧ x = n0) →
       odGet (classMapping (backrefStep newId s n0) j) x
         = odGet (classMapping s j) x) := by
  have hstep : backrefStep newId s n0
      = updateMapping
          (updateMapping s f.docClass
            (fun mp => odInsert mp bk.name (backrefFieldFor newId n0 bk)))
          newId (fun mp => setMarker mp n0 bk.name) := by
    simp only [backrefStep, hget, hbk]
  rw [hstep]
  have hlen1 : newId < (updateMapping s f.docClass
      (fun mp => odInsert mp bk.name (backrefFieldFor newId n0 bk))).heap.length := by
    rw [updateMapping_heap_length]; exact hNlen
  have hA := classMapping_updateMapping_self htlen
    (fun mp => odInsert mp bk.name (backrefFieldFor newId n0 bk))
  have hC := classMapping_updateMapping_self hlen1
    (fun mp => setMarker mp n0 bk.name)
  refine ⟨?_, ?_, ?_, ?_⟩
  · rw [updateMapping_heap_length, updateMapping_heap_length]
  · by_cases hdN : f.docClass = newId
    · have hnb : bk.name ≠ n0 := hns hdN
      rw [hdN] at hA hC ⊢
      rw [hC, odGet_setMarker_ne _ _ hnb, hA, odGet_insert_self]
    · rw [classMapping_updateMapping_ne hdN, hA, odGet_insert_self]
  · have hmid : odGet (classMapping (updateMapping s f.docClass
        (fun mp => odInsert mp bk.name (backrefFieldFor newId n0 bk))) newId) n0
        = some f := by
      by_cases hdN : f.docClass = newId
      · rw [hdN] at hA ⊢
        rw [hA, odGet_insert_ne _ _ (Ne.symm (hns hdN))]
        exact hget
      · rw [classMapping_updateMapping_ne (Ne.symm hdN)]
        exact hget
    rw [hC, odGet_setMarker_self _ hmid]
  · intro j x h1 h2
    by_cases hjN : j = newId
    · subst hjN
      rw [hC, odGet_setMarker_ne _ _ (fun he => h2 ⟨rfl, he⟩)]
      by_cases hdN : f.docClass = j
      · rw [hdN] at hA ⊢
        rw [hA, odGet_insert_ne _ _ (fun he => h1 ⟨hdN.symm, he⟩)]
      · rw [classMapping_updateMapping_ne (Ne.symm hdN)]
    · rw [classMapping_updateMapping_ne hjN]
      by_cases hjt : j = f.docClass
      · rw [hjt] at h1 ⊢
        rw [hA, odGet_insert_ne _ _ (fun he => h1 ⟨rfl, he⟩)]
      · rw [classMapping_updateMapping_ne hjt]

theorem backref_fold_inv (st0 : PState) (newId : Nat) (m : ODict Field)
    (R : List String) (hRnd : R.Nodup) (hNlen : newId < st0.heap.length)
    (hval : ∀ n ∈ R, ∀ t fn, slotOf m n = some (t, fn) →
        t < st0.heap.length ∧ (t = newId → fn ∉ R))
    (hdis : ∀ a ∈ R, ∀ b ∈ R, a ≠ b → ∀ s, slotOf m a = some s → slotOf m b ≠ some s) :
    ∀ todo done s,
      R = done ++ todo →
      s.heap.length = st0.heap.length →
      (∀ n ∈ todo, odGet (classMapping s newId) n = odGet m n) →
      (∀ n ∈ done, GoodAt m newId s n) →
      (todo.foldl (backrefStep newId) s).heap.length = st0.heap.length ∧
      (∀ n ∈ R, GoodAt m newId (todo.foldl (backrefStep newId) s) n) := by
  intro todo
  induction todo with
  | nil =>
      intro done s hsplit hlen hU hG
      rw [List.append_nil] at hsplit
      refine ⟨hlen, ?_⟩
      intro n hn
      exact hG n (hsplit ▸ hn)
  | cons n0 rest ih =>
      intro done s hsplit hlen hU hG
      have hn0R : n0 ∈ R := by
        rw [hsplit]; exact List.mem_append_right _ (List.mem_cons_self _ _)
      have hrestR : ∀ x ∈ rest, x ∈ R := by
        intro x hx
        rw [hsplit]; exact List.mem_append_right _ (List.mem_cons_of_mem _ hx)
      have hdoneR : ∀ x ∈ done, x ∈ R := by
        intro x hx
        rw [hsplit]; exact List.mem_append_left _ hx
      have hRnd2 : (done ++ n0 :: rest).Nodup := hsplit ▸ hRnd
      have hn0rest : n0 ∉ rest := (List.nodup_cons.mp hRnd2.of_append_right).1
      have hn0done : n0 ∉ done := by
        rw [List.nodup_append] at hRnd2
        intro hmem
        exact hRnd2.2.2 hmem (List.mem_cons_self n0 rest)
      have hsplit2 : R = (done ++ [n0]) ++ rest := by
        rw [hsplit]; simp
      have hget_s : odGet (classMapping s newId) n0 = odGet m n0 :=
        hU n0 (List.mem_cons_self _ _)
      rw [List.foldl_cons]
      cases hfm : odGet m n0 with
      | none =>
          have hstep : backrefStep newId s n0 = s := by
            simp only [backrefStep, hget_s, hfm]
          rw [hstep]
          apply ih (done ++ [n0]) s hsplit2 hlen
          · intro x hx
            exact hU x (List.mem_cons_of_mem _ hx)
          · intro x hx
            rcases List.mem_append.mp hx with hx | hx
            · exact hG x hx
            · have hx0 : x = n0 := List.mem_singleton.mp hx
              subst hx0
              intro f2 bk2 hf2 hbk2
              rw [hfm] at hf2
              exact Option.noConfusion hf2
      | some f =>
          cases hbk : f.backrefKwargs with
          | none =>
              have hstep : backrefStep newId s n0 = s := by
                simp only [backrefStep, hget_s, hfm, hbk]
              rw [hstep]
              apply ih (done ++ [n0]) s hsplit2 hlen
              · intro x hx
                exact hU x (List.mem_cons_of_mem _ hx)
              · intro x hx
                rcases List.mem_append.mp hx with hx | hx
                · exact hG x hx
                · have hx0 : x = n0 := List.mem_singleton.mp hx
                  subst hx0
                  intro f2 bk2 hf2 hbk2
                  rw [hfm] at hf2
                  injection hf2 with he
                  subst he
                  rw [hbk] at hbk2
                  exact Option.noConfusion hbk2
          | some bk =>
              have hslot : slotOf m n0 = some (f.docClass, bk.name) := slotOf_eq hfm hbk
              obtain ⟨htlen, hnoclb⟩ := hval n0 hn0R f.docClass bk.name hslot
              have hget2 : odGet (classMapping s newId) n0 = some f := by
                rw [hget_s]; exact hfm
              have hns : f.docClass = newId → bk.name ≠ n0 := by
                intro htn he
                exact (hnoclb htn) (he ▸ hn0R)
              obtain ⟨hslen, hstgt, hsorig, hsframe⟩ :=
                backrefStep_spec newId s n0 f bk hget2 hbk
                  (by rw [hlen]; exact htlen) (by rw [hlen]; exact hNlen) hns
              apply ih (done ++ [n0]) (backrefStep newId s n0) hsplit2
                (hslen.trans hlen)
              · intro x hx
                rw [hsframe newId x ?uc1 ?uc2]
                · exact hU x (List.mem_cons_of_mem _ hx)
                case uc1 =>
                  rintro ⟨he1, he2⟩
                  exact (hnoclb he1.symm) (he2 ▸ hrestR x hx)
                case uc2 =>
                  rintro ⟨-, he2⟩
                  exact hn0rest (he2 ▸ hx)
              · intro x hx
                rcases List.mem_append.mp hx with hx | hx
                · intro f2 bk2 hf2 hbk2
                  obtain ⟨hG1, hG2⟩ := hG x hx f2 bk2 hf2 hbk2
                  have hslot2 := slotOf_eq hf2 hbk2
                  have hxR := hdoneR x hx
                  have hxn0 : x ≠ n0 := fun he => hn0done (he ▸ hx)
                  have hsd : ¬ (f2.docClass = f.docClass ∧ bk2.name = bk.name) := by
                    rintro ⟨e1, e2⟩
                    exact (hdis x hxR n0 hn0R hxn0 _ hslot2) (by rw [hslot, e1, e2])
                  constructor
                  · rw [hsframe f2.docClass bk2.name hsd ?gc1]
                    · exact hG1
                    case gc1 =>
                      rintro ⟨e1, e2⟩
                      obtain ⟨-, hnoclb2⟩ := hval x hxR f2.docClass bk2.name hslot2
                      exact (hnoclb2 e1) (e2 ▸ hn0R)
                  · rw [hsframe newId x ?gc2 ?gc3]
                    · exact hG2
                    case gc2 =>
                      rintro ⟨e1, e2⟩
                      exact (hnoclb e1.symm) (e2 ▸ hxR)
                    case gc3 =>
                      rintro ⟨-, e2⟩
                      exact hxn0 e2
                · have hx0 : x = n0 := List.mem_singleton.mp hx
                  subst hx0
                  intro f2 bk2 hf2 hbk2
                  rw [hfm] at hf2
                  injection hf2 with he
                  subst he
                  rw [hbk] at hbk2
                  injection hbk2 with he2
                  subst he2
                  exact ⟨hstgt, hsorig⟩

/-- C1: for a well-formed construction (live target references, no slot
collisions — the preconditions the spec itself imposes), every relationship
field of the new class carrying an inverse request ends, after backref
synthesis, with a counterpart field in the target class's mapping under the
requested name whose back-populate marker is the originating field's name,
while the originating field's back-populate marker is the requested target
field name. -/
theorem c1_backref_symmetry (st : PState) (newId : Nat)
    (hwf : backrefWF st newId = true)
    (n : String) (f : Field) (bk : BackrefKwargs)
    (hn : n ∈ relNames (classMapping st newId))
    (hf : odGet (classMapping st newId) n = some f)
    (hbk : f.backrefKwargs = some bk) :
    odGet (classMapping (backrefSynthesis newId st) f.docClass) bk.name
      = some (backrefFieldFor newId n bk) ∧
    odGet (classMapping (backrefSynthesis newId st) newId) n
      = some { f with backPopulates := some bk.name } := by
  unfold backrefWF at hwf
  rw [Bool.and_eq_true, Bool.and_eq_true, Bool.and_eq_true] at hwf
  obtain ⟨⟨⟨h1, h2⟩, h3⟩, h4⟩ := hwf
  have hNlen : newId < st.heap.length := of_decide_eq_true h1
  have hnodup : (odKeys (classMapping st newId)).Nodup := of_decide_eq_true h2
  have hRnd : (relNames (classMapping st newId)).Nodup :=
    hnodup.sublist ((List.filter_sublist _).map _)
  have hval : ∀ nn ∈ relNames (classMapping st newId), ∀ t fn,
      slotOf (classMapping st newId) nn = some (t, fn) →
      t < st.heap.length ∧ (t = newId → fn ∉ relNames (classMapping st newId)) := by
    intro nn hnn t fn hs
    exact reqOk_elim (List.all_eq_true.mp h3 nn hnn) hs
  have hdis := slotsDistinct_elim _ _ h4
  have hmain := backref_fold_inv st newId (classMapping st newId)
    (relNames (classMapping st newId)) hRnd hNlen hval hdis
    (relNames (classMapping st newId)) [] st rfl rfl
    (fun x _ => rfl) (fun x hx => absurd hx (List.not_mem_nil x))
  exact hmain.2 n hn f bk hf hbk

theorem c1_backref_symmetry_witness :
    odGet (classMapping (backrefSynthesis 1
        ⟨[⟨"Author", []⟩,
          ⟨"Book", [("author", ⟨1, true, 0, false, [],
            some ⟨"books", some true, []⟩, none⟩)]⟩],
         [("Author", 0)], []⟩) 0) "books"
      = some (backrefFieldFor 1 "author" ⟨"books", some true, []⟩) ∧
    odGet (classMapping (backrefSynthesis 1
        ⟨[⟨"Author", []⟩,
          ⟨"Book", [("author", ⟨1, true, 0, false, [],
            some ⟨"books", some true, []⟩, none⟩)]⟩],
         [("Author", 0)], []⟩) 1) "author"
      = some ⟨1, true, 0, false, [], some ⟨"books", some true, []⟩, some "books"⟩ :=
  c1_backref_symmetry
    ⟨[⟨"Author", []⟩,
      ⟨"Book", [("author", ⟨1, true, 0, false, [],
        some ⟨"books", some true, []⟩, none⟩)]⟩],
     [("Author", 0)], []⟩ 1 (by decide) "author"
    ⟨1, true, 0, false, [], some ⟨"books", some true, []⟩, none⟩
    ⟨"books", some true, []⟩ (by decide) (by decide) (by decide)

/-- C8: a relationship field that carries no inverse-relationship request is
skipped by the backref loop — the processing step is the identity on the
state, so nothing is added to the target class's mapping and no
back-populate marker is set anywhere. -/
theorem c8_no_request_no_mutation (newId : Nat) (st : PState) (n : String) (f : Field)
    (hf : odGet (classMapping st newId) n = some f)
    (hbk : f.backrefKwargs = none) :
    backrefStep newId st n = st := by
  simp only [backrefStep, hf, hbk]

theorem c8_no_request_no_mutation_witness :
    backrefStep 1
        ⟨[⟨"Author", []⟩,
          ⟨"Book", [("author", ⟨1, true, 0, false, [], none, none⟩)]⟩],
         [("Author", 0)], []⟩ "author"
      = ⟨[⟨"Author", []⟩,
          ⟨"Book", [("author", ⟨1, true, 0, false, [], none, none⟩)]⟩],
         [("Author", 0)], []⟩ :=
  c8_no_request_no_mutation 1
    ⟨[⟨"Author", []⟩,
      ⟨"Book", [("author", ⟨1, true, 0, false, [], none, none⟩)]⟩],
     [("Author", 0)], []⟩ "author"
    ⟨1, true, 0, false, [], none, none⟩ (by decide) (by decide)

/-- C10: the target field name is popped from a copy of the request options,
so processing a request-carrying relationship field leaves its stored
request (the `name` entry included) intact and changes only its
back-populate marker. -/
theorem c10_request_options_preserved (newId : Nat) (st : PState) (n : String)
    (f : Field) (bk : BackrefKwargs)
    (hlen : newId < st.heap.length)
    (hf : odGet (classMapping st newId) n = some f)
    (hbk : f.backrefKwargs = some bk)
    (hslot : f.docClass ≠ newId ∨ bk.name ≠ n) :
    odGet (classMapping (backrefStep newId st n) newId) n
      = some { f with backPopulates := some bk.name } := by
  have hns : f.docClass = newId → bk.name ≠ n := by
    intro htn
    rcases hslot with h | h
    · exact absurd htn h
    · exact h
  by_cases htl : f.docClass < st.heap.length
  · exact (backrefStep_spec newId st n f bk hf hbk htl hlen hns).2.2.1
  · have hdn : f.docClass ≠ newId := by
      intro he
      exact htl (he ▸ hlen)
    have hstep : backrefStep newId st n
        = updateMapping
            (updateMapping st f.docClass
              (fun mp => odInsert mp bk.name (backrefFieldFor newId n bk)))
            newId (fun mp => setMarker mp n bk.name) := by
      simp only [backrefStep, hf, hbk]
    have hnone : updateMapping st f.docClass
        (fun mp => odInsert mp bk.name (backrefFieldFor newId n bk)) = st := by
      unfold updateMapping
      rw [List.getElem?_eq_none (Nat.le_of_not_lt htl)]
    rw [hstep, hnone]
    have hC := classMapping_updateMapping_self hlen
      (fun mp => setMarker mp n bk.name)
    rw [hC, odGet_setMarker_self _ hf]

theorem c10_request_options_preserved_witness :
    odGet (classMapping (backrefStep 1
        ⟨[⟨"Author", []⟩,
          ⟨"Book", [("author", ⟨1, true, 0, false, [],
            some ⟨"books", some true, []⟩, none⟩)]⟩],
         [("Author", 0)], []⟩ "author") 1) "author"
      = some ⟨1, true, 0, false, [], some ⟨"books", some true, []⟩, some "books"⟩ :=
  c10_request_options_preserved 1
    ⟨[⟨"Author", []⟩,
      ⟨"Book", [("author", ⟨1, true, 0, false, [],
        some ⟨"books", some true, []⟩, none⟩)]⟩],
     [("Author", 0)], []⟩ "author"
    ⟨1, true, 0, false, [], some ⟨"books", some true, []⟩, none⟩
    ⟨"books", some true, []⟩ (by decide) (by decide) (by decide)
    (Or.inl (by decide))

end NefertariES
